import Mathlib

/-!
Verification of the document model and text-annotation pipeline of the
aitbible repository: the XML verse parser (`parseTextElement`, `parseVerse`,
`getTextContent`, `stripMarkdown` in `src/web/lib/xml-parser.ts`), the
glossary term matcher (`buildTermLookup`, `matchGlossaryTerm` in
`src/web/lib/glossary.ts`), the paragraph grouping in
`src/web/components/ChapterContent.tsx`, and the emphasis renderer
(`renderWithItalics` in the translation-notes component).

Strings are modelled as `List Char`.  The JavaScript regular-expression
replacements used by `stripMarkdown` are modelled by fuelled left-to-right
scanners (the fuel is always initialised to the length of the string, which
suffices because every step consumes at least one character, so the
fuel-exhausted branch is unreachable from the public entry points).
-/

namespace Aitbible

/-- Whitespace characters recognised by JavaScript `trim` / `\s`
(restricted to the ASCII range actually occurring in the data). -/
def isWs (c : Char) : Bool :=
  c = ' ' || c = '\t' || c = '\n' || c = '\r'

/-- JavaScript `String.prototype.trim`: drop leading and trailing whitespace. -/
def trimChars (s : List Char) : List Char :=
  ((s.dropWhile isWs).reverse.dropWhile isWs).reverse

/-- One step of the global replacement of `/\*\*([^*]+)\*\*/g` by `$1`
(removal of `**bold**` markers), as a fuelled left-to-right scan.
At each position, either a full `**content**` match starts there and is
replaced by its content, or one character is copied and scanning resumes
at the next position. -/
def boldStripF : Nat → List Char → List Char
  | 0, s => s
  | _ + 1, [] => []
  | fuel + 1, c :: cs =>
    if c = '*' ∧ cs.head? = some '*' then
      let content := cs.tail.takeWhile (· ≠ '*')
      let after := cs.tail.dropWhile (· ≠ '*')
      if content ≠ [] ∧ after.take 2 = ['*', '*'] then
        content ++ boldStripF fuel (after.drop 2)
      else c :: boldStripF fuel cs
    else c :: boldStripF fuel cs

/-- Global replacement of `/\*([^*]+)\*/g` by `$1` (removal of `*italic*`
markers), fuelled scan with the same conventions as `boldStripF`. -/
def italicStripF : Nat → List Char → List Char
  | 0, s => s
  | _ + 1, [] => []
  | fuel + 1, c :: cs =>
    if c = '*' then
      let content := cs.takeWhile (· ≠ '*')
      let after := cs.dropWhile (· ≠ '*')
      if content ≠ [] ∧ after.head? = some '*' then
        content ++ italicStripF fuel after.tail
      else c :: italicStripF fuel cs
    else c :: italicStripF fuel cs

/-- Global removal of a bracketed tag `pat […no "]"…]` (the literal opening
`pat` such as `[SPEAKER:`, then any run of non-`]` characters, then `]`),
modelling `/\[SPEAKER:[^\]]*\]/g` and `/\[\/SPEAKER:[^\]]*\]/g`. -/
def tagStripF (pat : List Char) : Nat → List Char → List Char
  | 0, s => s
  | _ + 1, [] => []
  | fuel + 1, c :: cs =>
    if pat.isPrefixOf (c :: cs) then
      let rest := (c :: cs).drop pat.length
      let after := rest.dropWhile (· ≠ ']')
      if after.head? = some ']' then tagStripF pat fuel after.tail
      else c :: tagStripF pat fuel cs
    else c :: tagStripF pat fuel cs

/-- The `stripMarkdown` function of `src/web/lib/xml-parser.ts`: remove
`**bold**` markers, then `*italic*` markers, then leftover
`[/SPEAKER:…]` and `[SPEAKER:…]` tags, in that order. -/
def stripMarkdown (s : List Char) : List Char :=
  let s1 := boldStripF s.length s
  let s2 := italicStripF s1.length s1
  let s3 := tagStripF "[/SPEAKER:".toList s2.length s2
  tagStripF "[SPEAKER:".toList s3.length s3

/-- A DOM node as seen by the parser: a text node (`nodeType === 3`) with its
`nodeValue`, or an element node (`nodeType === 1`) with its tag name,
attribute list and child nodes. -/
inductive XNode : Type where
  | text : List Char → XNode
  | elem : List Char → List (List Char × List Char) → List XNode → XNode

/-- The `childNodes` of a node (text nodes have none). -/
def XNode.childNodes : XNode → List XNode
  | .text _ => []
  | .elem _ _ cs => cs

/-- DOM `getAttribute`: the value of the first attribute with the given
name, or `none` when absent. -/
def getAttribute (name : List Char) : XNode → Option (List Char)
  | .text _ => none
  | .elem _ attrs _ => (attrs.find? (fun a => a.1 = name)).map (fun a => a.2)

mutual

/-- The `getTextContent` helper of `src/web/lib/xml-parser.ts`: concatenate
the `nodeValue` of text children and the (already stripped) text content of
element children, then apply `stripMarkdown` to the concatenation.  On a
text node it is the contribution of that node, i.e. its raw `nodeValue`. -/
def getTextContent : XNode → List Char
  | .text s => s
  | .elem _ _ cs => stripMarkdown (getTextContentList cs)

/-- Concatenated contributions of a list of child nodes. -/
def getTextContentList : List XNode → List Char
  | [] => []
  | n :: ns => getTextContent n ++ getTextContentList ns

end

mutual

/-- The node itself when it is an element with the given tag name, followed
by its matching descendants, in document (preorder) order. -/
def elementsOfNode (tag : List Char) : XNode → List XNode
  | .text _ => []
  | .elem t a cs =>
    (if t = tag then [XNode.elem t a cs] else []) ++ elementsByTagInList tag cs

/-- Matching elements of a list of subtrees, in document order. -/
def elementsByTagInList (tag : List Char) : List XNode → List XNode
  | [] => []
  | n :: ns => elementsOfNode tag n ++ elementsByTagInList tag ns

end

/-- DOM `getElementsByTagName`: all descendant elements (excluding the node
itself) with the given tag name, in document (preorder) order. -/
def getElementsByTagName (tag : List Char) (el : XNode) : List XNode :=
  elementsByTagInList tag el.childNodes

/-- Segment kind: plain narration (`"text"`) or speaker-attributed
(`"speaker"`). -/
inductive SegKind : Type where
  | text : SegKind
  | speaker : SegKind
deriving DecidableEq

/-- The `TextSegment` interface of `src/web/lib/xml-parser.ts`
(`speaker` is the optional speaker name). -/
structure TextSegment : Type where
  type : SegKind
  content : List Char
  speaker : Option (List Char)
deriving DecidableEq

/-- Result of `parseTextElement`: plain text, segments, paragraph flag and
speaker flag. -/
structure TextResult : Type where
  text : List Char
  segments : List TextSegment
  paragraphStart : Bool
  hasSpeaker : Bool
deriving DecidableEq

/-- Accumulator state of the child-node loop of `parseTextElement`:
the `segments` array, the `plainText` accumulator and the two flags. -/
structure TPState : Type where
  segments : List TextSegment
  plainText : List Char
  paragraphStart : Bool
  hasSpeaker : Bool
deriving DecidableEq

/-- The speaker of a `<q>` element: `el.getAttribute("who") || "unknown"`
(absent or empty attribute falls back to `"unknown"`). -/
def whoOf (el : XNode) : List Char :=
  match getAttribute "who".toList el with
  | some s => if s = [] then "unknown".toList else s
  | none => "unknown".toList

/-- The child-node loop of `parseTextElement` (lines 163–191 of
`src/web/lib/xml-parser.ts`): text nodes are stripped and pushed when
non-blank, `<p>` sets the paragraph flag, `<q>` pushes a speaker segment
with the flattened text content of the whole quote element. -/
def parseTextLoop : List XNode → TPState → TPState
  | [], st => st
  | .text s :: ns, st =>
    let content := stripMarkdown s
    if trimChars content ≠ [] then
      parseTextLoop ns { st with
        segments := st.segments ++ [⟨.text, content, none⟩],
        plainText := st.plainText ++ content }
    else parseTextLoop ns st
  | .elem t a cs :: ns, st =>
    let tagName := t.map Char.toLower
    if tagName = "p".toList then
      parseTextLoop ns { st with paragraphStart := true }
    else if tagName = "q".toList then
      let speaker := whoOf (.elem t a cs)
      let content := getTextContent (.elem t a cs)
      parseTextLoop ns { st with
        segments := st.segments ++ [⟨.speaker, content, some speaker⟩],
        plainText := st.plainText ++ content,
        hasSpeaker := true }
    else parseTextLoop ns st

/-- The `parseTextElement` function of `src/web/lib/xml-parser.ts`: walk the
children of the `<text>` element (empty result when the element is absent)
and return the trimmed plain text, the segments and the two flags. -/
def parseTextElement : Option XNode → TextResult
  | none => ⟨[], [], false, false⟩
  | some el =>
    let st := parseTextLoop el.childNodes ⟨[], [], false, false⟩
    ⟨trimChars st.plainText, st.segments, st.paragraphStart, st.hasSpeaker⟩

/-- JavaScript `parseInt(s, 10)`: skip leading whitespace, read an optional
sign and a run of decimal digits; `none` models `NaN` (no digits). -/
def jsParseInt (s : List Char) : Option Int :=
  let s1 := s.dropWhile isWs
  let signed : Int × List Char :=
    match s1 with
    | '-' :: rest => (-1, rest)
    | '+' :: rest => (1, rest)
    | _ => (1, s1)
  let sign := signed.1
  let digits := signed.2.takeWhile Char.isDigit
  if digits = [] then none
  else some (sign * (digits.foldl (fun acc c => 10 * acc + (c.toNat - '0'.toNat)) 0 : Nat))

/-- A Greek word of a verse (`GreekWord` in `src/web/lib/xml-parser.ts`).
The source field `lemma` is named `lemma'` because `lemma` is a Lean
keyword. -/
structure GreekWord : Type where
  text : List Char
  lemma' : List Char
deriving DecidableEq

/-- A translation note of a verse (`VerseNote` in
`src/web/lib/xml-parser.ts`). -/
structure VerseNote : Type where
  term : List Char
  explanation : List Char
deriving DecidableEq

/-- The `ParsedVerse` interface.  The verse number is `Option Int`, where
`none` models the JavaScript `NaN` produced by `parseInt` on a
non-numeric attribute. -/
structure ParsedVerse : Type where
  verse : Option Int
  text : List Char
  segments : List TextSegment
  paragraphStart : Bool
  greek : List GreekWord
  notes : List VerseNote
  hasSpeaker : Bool
deriving DecidableEq

/-- The `parseVerse` function of `src/web/lib/xml-parser.ts`: reject a verse
whose `num` attribute parses to `0`, otherwise assemble the projection from
the first `<text>` descendant, the `<w>` children of the first `<greek>`
descendant, and the `<note>` descendants. -/
def parseVerse (verseEl : XNode) : Option ParsedVerse :=
  let verseNum := jsParseInt ((getAttribute "num".toList verseEl).getD "0".toList)
  if verseNum = some 0 then none
  else
    let r := parseTextElement (getElementsByTagName "text".toList verseEl).head?
    let greek : List GreekWord :=
      match (getElementsByTagName "greek".toList verseEl).head? with
      | none => []
      | some greekEl =>
        (getElementsByTagName "w".toList greekEl).map (fun w =>
          ⟨getTextContent w, (getAttribute "lemma".toList w).getD []⟩)
    let notes : List VerseNote :=
      (getElementsByTagName "note".toList verseEl).map (fun n =>
        ⟨(getAttribute "term".toList n).getD [], getTextContent n⟩)
    some ⟨verseNum, r.text, r.segments, r.paragraphStart, greek, notes, r.hasSpeaker⟩

/-- The verse loop of `parseAITXml` (lines 76–85 of
`src/web/lib/xml-parser.ts`): parse every `<verse>` descendant of a chapter
element and keep the non-null results, in order. -/
def parseChapterVerses (chapterEl : XNode) : List ParsedVerse :=
  (getElementsByTagName "verse".toList chapterEl).filterMap parseVerse

/-- JavaScript `String.prototype.split` with a string separator, as a
fuelled scan: split at each leftmost non-overlapping occurrence of `sep`. -/
def splitOnSepF (sep : List Char) : Nat → List Char → List Char → List (List Char)
  | 0, s, acc => [acc ++ s]
  | _ + 1, [], acc => [acc]
  | fuel + 1, c :: cs, acc =>
    if sep.isPrefixOf (c :: cs) then
      acc :: splitOnSepF sep fuel ((c :: cs).drop sep.length) []
    else splitOnSepF sep fuel cs (acc ++ [c])

/-- JavaScript `String.prototype.split` on a string separator. -/
def splitOnSep (sep s : List Char) : List (List Char) :=
  splitOnSepF sep (s.length + 1) s []

/-- JavaScript `String.prototype.split` on a regular expression matching a
non-empty run of characters satisfying `p` (such as `/\s+/` or
`/[,\s\/]+/`): pieces between maximal runs of separator characters,
including an empty leading piece when the string starts with a separator
and an empty trailing piece when it ends with one. -/
def splitRunsF (p : Char → Bool) : Nat → List Char → List (List Char)
  | 0, s => [s]
  | fuel + 1, s =>
    let piece := s.takeWhile (fun c => !p c)
    let rest := s.dropWhile (fun c => !p c)
    if rest = [] then [piece]
    else piece :: splitRunsF p fuel (rest.dropWhile p)

/-- Split on runs of characters satisfying `p` (JS `split(/[p]+/)`). -/
def splitRuns (p : Char → Bool) (s : List Char) : List (List Char) :=
  splitRunsF p (s.length + 1) s

/-- JavaScript `String.prototype.includes`: `containsSub needle hay` is
true iff `needle` occurs as a contiguous substring of `hay`. -/
def containsSub (needle : List Char) : List Char → Bool
  | [] => needle.isEmpty
  | c :: cs => needle.isPrefixOf (c :: cs) || containsSub needle cs

/-- A glossary occurrence reference (`appearsIn` entry). -/
structure TermRef : Type where
  book : List Char
  chapter : Int
  verses : List Int
deriving DecidableEq

/-- The `GlossaryTerm` interface of `src/web/lib/glossary.ts`.  The source
field `lemma` is named `lemma'` because `lemma` is a Lean keyword. -/
structure GlossaryTerm : Type where
  id : List Char
  greek : List Char
  lemma' : List Char
  aitRendering : List Char
  traditional : List Char
  category : List Char
  brief : List Char
  context : List Char
  appearsIn : List TermRef
  greekAppearsIn : List TermRef
deriving DecidableEq

/-- The slash-separated alternative renderings of a term (lines 299–301 of
`src/web/lib/glossary.ts`): split `aitRendering` on `" / "` and trim each
part when the delimiter occurs, otherwise the whole rendering. -/
def alternativesOf (t : GlossaryTerm) : List (List Char) :=
  if containsSub (" / ".toList) t.aitRendering then
    (splitOnSep " / ".toList t.aitRendering).map trimChars
  else [t.aitRendering]

/-- The lookup key contributed by one rendering alternative: the first word
of `alt.toLowerCase().split(/\s+/)` (both branches of the source perform
the same `lookup.set(words[0], term)`). -/
def firstWordKey (alt : List Char) : List Char :=
  (splitRuns isWs (alt.map Char.toLower)).headD []

/-- A JavaScript `Map<string, GlossaryTerm>` as an association list with
unique keys; `set` overwrites the entry of an existing key in place and
appends a new key at the end. -/
def mapSet : List (List Char × GlossaryTerm) → List Char → GlossaryTerm →
    List (List Char × GlossaryTerm)
  | [], k, v => [(k, v)]
  | (k', v') :: rest, k, v =>
    if k' = k then (k, v) :: rest else (k', v') :: mapSet rest k v

/-- JavaScript `Map.get`. -/
def mapGet (m : List (List Char × GlossaryTerm)) (k : List Char) :
    Option GlossaryTerm :=
  (m.find? (fun e => e.1 = k)).map (fun e => e.2)

/-- The `buildTermLookup` function of `src/web/lib/glossary.ts` (lines
230–254), parameterised by the glossary data: every rendering alternative
of every term registers the term under the alternative's lowercased first
word, later terms overwriting earlier ones. -/
def buildTermLookup (glossary : List GlossaryTerm) :
    List (List Char × GlossaryTerm) :=
  glossary.foldl
    (fun lookup term =>
      (alternativesOf term).foldl
        (fun lk alt => mapSet lk (firstWordKey alt) term) lookup)
    []

/-- Word characters of the candidate-word regex `/^[\w'-]+/i`. -/
def isWordChar (c : Char) : Bool :=
  c.isAlphanum || c = '_' || c = '\'' || c = '-'

/-- Separator characters of the lemma split `/[,\s\/]+/`. -/
def isLemmaSep (c : Char) : Bool :=
  c = ',' || isWs c || c = '/'

/-- The normalised fragments of a term's lemma (lines 285–288 of
`src/web/lib/glossary.ts`): lowercase, split on comma/whitespace/slash
runs, trim, drop empties. -/
def termLemmaParts (t : GlossaryTerm) : List (List Char) :=
  (((splitRuns isLemmaSep (t.lemma'.map Char.toLower)).map trimChars).filter
    (fun l => l ≠ []))

/-- The lemma-overlap test (lines 289–291): some lemma fragment is a
substring of some verse lemma or vice versa. -/
def hasMatchingLemma (verseLemmas : List (List Char)) (t : GlossaryTerm) : Bool :=
  (termLemmaParts t).any (fun part =>
    verseLemmas.any (fun vl => containsSub part vl || containsSub vl part))

/-- The lemma gate of `matchGlossaryTerm` (lines 284–296): blocks the match
iff a verse-lemma set was supplied, it is non-empty, and no lemma fragment
overlaps it.  `verseLemmas = none` models an omitted argument. -/
def blocksGate (verseLemmas : Option (List (List Char))) (t : GlossaryTerm) : Bool :=
  match verseLemmas with
  | none => false
  | some s => if 0 < s.length then !hasMatchingLemma s t else false

/-- Word-boundary characters of the lookahead `(?=[\s.,;:!?'"\)]|$)`. -/
def isBoundaryChar (c : Char) : Bool :=
  isWs c || c = '.' || c = ',' || c = ';' || c = ':' || c = '!' || c = '?' ||
    c = '\'' || c = '"' || c = ')'

/-- The per-alternative regex test of lines 305–322: the rendering matches
at the start of `rem` as an exact case-insensitive substring followed by a
word boundary or the end of the string. -/
def renderingMatchesAt (r rem : List Char) : Bool :=
  ((rem.take r.length).map Char.toLower = r.map Char.toLower) &&
    (match rem.drop r.length with
     | [] => true
     | c :: _ => isBoundaryChar c)

/-- The alternatives loop of lines 303–323: return the matched text of the
first alternative whose rendering matches (the single-word and multi-word
branches of the source are identical up to `continue`). -/
def firstAltMatch : List (List Char) → List Char → Option (List Char)
  | [], _ => none
  | r :: rs, rem =>
    if renderingMatchesAt r rem then some (rem.take r.length)
    else firstAltMatch rs rem

/-- The `matchGlossaryTerm` function of `src/web/lib/glossary.ts` (lines
264–326), parameterised by the glossary data behind the module-level
`termLookup`.  Returns the matched term together with the exact substring
consumed. -/
def matchGlossaryTerm (glossary : List GlossaryTerm) (text : List Char)
    (startIndex : Nat) (verseLemmas : Option (List (List Char))) :
    Option (GlossaryTerm × List Char) :=
  let remainingText := text.drop startIndex
  let w := remainingText.takeWhile isWordChar
  if w = [] then none
  else
    match mapGet (buildTermLookup glossary) (w.map Char.toLower) with
    | none => none
    | some potentialTerm =>
      if blocksGate verseLemmas potentialTerm then none
      else (firstAltMatch (alternativesOf potentialTerm) remainingText).map
        (fun m => (potentialTerm, m))

/-- The permissive mode of the matcher: the same pipeline with the lemma
gate absent, used to state that an omitted lemma set skips the check
entirely. -/
def matchGlossaryTermPermissive (glossary : List GlossaryTerm)
    (text : List Char) (startIndex : Nat) : Option (GlossaryTerm × List Char) :=
  let remainingText := text.drop startIndex
  let w := remainingText.takeWhile isWordChar
  if w = [] then none
  else
    match mapGet (buildTermLookup glossary) (w.map Char.toLower) with
    | none => none
    | some potentialTerm =>
      (firstAltMatch (alternativesOf potentialTerm) remainingText).map
        (fun m => (potentialTerm, m))

/-- The lowercased candidate first word at an offset. -/
def firstWordAt (text : List Char) (i : Nat) : List Char :=
  ((text.drop i).takeWhile isWordChar).map Char.toLower

/-- The lowercased first-word keys contributed by a term's alternatives. -/
def termFirstWordKeys (t : GlossaryTerm) : List (List Char) :=
  (alternativesOf t).map firstWordKey

/-- The verse-grouping loop of `ChapterContent` (lines 79–85 of
`src/web/components/ChapterContent.tsx`): push the current paragraph and
start a new one whenever a verse has `paragraphStart` and the current
paragraph is non-empty, then append the verse to the current paragraph. -/
def groupLoop : List ParsedVerse → List (List ParsedVerse) → List ParsedVerse →
    List (List ParsedVerse) × List ParsedVerse
  | [], paragraphs, current => (paragraphs, current)
  | v :: vs, paragraphs, current =>
    if v.paragraphStart && 0 < current.length then
      groupLoop vs (paragraphs ++ [current]) [v]
    else groupLoop vs paragraphs (current ++ [v])

/-- The paragraph grouping of `ChapterContent` (lines 75–88): run the loop
from empty accumulators and flush the trailing non-empty paragraph. -/
def groupParagraphs (verses : List ParsedVerse) : List (List ParsedVerse) :=
  let r := groupLoop verses [] []
  if 0 < r.2.length then r.1 ++ [r.2] else r.1

/-- A part of the rendered output of `renderWithItalics`: an emphasis span
(`<em>`) or a plain string. -/
inductive EmPart : Type where
  | em : List Char → EmPart
  | plain : List Char → EmPart
deriving DecidableEq

/-- JavaScript `text.split(/\*([^*]+)\*/g)` with its capturing group: the
result alternates pieces outside matches (even indices) with the captured
delimiter contents (odd indices).  Fuelled scan; `acc` is the piece built
since the last match. -/
def splitItalicF : Nat → List Char → List Char → List (List Char)
  | 0, s, acc => [acc ++ s]
  | _ + 1, [], acc => [acc]
  | fuel + 1, c :: cs, acc =>
    if c = '*' then
      let content := cs.takeWhile (· ≠ '*')
      let after := cs.dropWhile (· ≠ '*')
      if content ≠ [] ∧ after.head? = some '*' then
        acc :: content :: splitItalicF fuel after.tail []
      else splitItalicF fuel cs (acc ++ [c])
    else splitItalicF fuel cs (acc ++ [c])

/-- Map the split result to parts, odd indices becoming `<em>` spans
(`index % 2 === 1` in the source); the Boolean is the parity. -/
def altEmMap : Bool → List (List Char) → List EmPart
  | _, [] => []
  | b, p :: ps => (if b then .em p else .plain p) :: altEmMap (!b) ps

/-- The `renderWithItalics` helper of the translation-notes component:
split on `/\*([^*]+)\*/g` and wrap the odd-index parts in emphasis. -/
def renderWithItalics (text : List Char) : List EmPart :=
  altEmMap false (splitItalicF text.length text [])

/-- The segment contributed by one child node of the `<text>` element:
a `text` segment for a non-blank text node, a `speaker` segment for a
`<q>` element, nothing for `<p>` or any other node. -/
def segOfChild : XNode → Option TextSegment
  | .text s =>
    let content := stripMarkdown s
    if trimChars content ≠ [] then some ⟨.text, content, none⟩ else none
  | .elem t a cs =>
    let tagName := t.map Char.toLower
    if tagName = "p".toList then none
    else if tagName = "q".toList then
      some ⟨.speaker, getTextContent (.elem t a cs), some (whoOf (.elem t a cs))⟩
    else none

/-- The nested-quote scenario of C2: an outer quote by Jesus containing
plain text, a nested quote by Peter, and trailing plain text. -/
def nestedQuoteNode : XNode :=
  .elem "q".toList [("who".toList, "Jesus".toList)]
    [.text "Tend ".toList,
     .elem "q".toList [("who".toList, "Peter".toList)] [.text "my".toList],
     .text " sheep".toList]

/-- A group whose first verse (if any) has the paragraph-start flag. -/
def headFlagged (g : List ParsedVerse) : Prop :=
  ∀ v, g.head? = some v → v.paragraphStart = true

/-- A group none of whose non-head verses has the paragraph-start flag. -/
def tailUnflagged (g : List ParsedVerse) : Prop :=
  ∀ v ∈ g.drop 1, v.paragraphStart = false

/-- The flush after the grouping loop: append the trailing paragraph when
it is non-empty. -/
def finalizeGroups (r : List (List ParsedVerse) × List ParsedVerse) :
    List (List ParsedVerse) :=
  if 0 < r.2.length then r.1 ++ [r.2] else r.1

/-- The glossary entry for the homograph scenario: English "just"
rendering the Greek lemma for "righteous". -/
def justTerm : GlossaryTerm :=
  ⟨"g001".toList, "δίκαιος".toList, "δίκαιος".toList, "just".toList,
   "righteous".toList, "theology".toList, [], [], [], []⟩

/-- The glossary entry for the multi-word boundary scenario. -/
def gentleTerm : GlossaryTerm :=
  ⟨"g002".toList, "πραΰς".toList, "πραΰς".toList, "gentle in strength".toList,
   "meek".toList, "theology".toList, [], [], [], []⟩

/-- Two glossary terms sharing the first word "grace"; the earlier one. -/
def graceA : GlossaryTerm :=
  ⟨"g010".toList, "χάρις".toList, "χάρις".toList, "grace".toList,
   "grace".toList, "theology".toList, [], [], [], []⟩

/-- Two glossary terms sharing the first word "grace"; the later one. -/
def graceB : GlossaryTerm :=
  ⟨"g011".toList, "χάρις".toList, "χάρις".toList, "grace".toList,
   "favor".toList, "theology".toList, [], [], [], []⟩

/-- Concatenation of the `content` fields of a list of segments, in order. -/
def joinContents (segs : List TextSegment) : List Char :=
  (segs.map (fun s => s.content)).flatten

lemma joinContents_append (a b : List TextSegment) :
    joinContents (a ++ b) = joinContents a ++ joinContents b := by
  simp [joinContents]

/-- The loop of `parseTextElement` preserves the invariant that the
`plainText` accumulator is the concatenation of the contents of the
accumulated segments: both are extended by the same `content` whenever a
segment is pushed. -/
lemma parseTextLoop_plainText (ns : List XNode) (st : TPState)
    (h : st.plainText = joinContents st.segments) :
    (parseTextLoop ns st).plainText = joinContents (parseTextLoop ns st).segments := by
  induction ns generalizing st with
  | nil => simpa [parseTextLoop] using h
  | cons n ns ih =>
    cases n with
    | text s =>
      rw [parseTextLoop]
      split
      · exact ih _ (by simp [joinContents_append, joinContents, h])
      · exact ih _ h
    | elem t a cs =>
      rw [parseTextLoop]
      split
      · exact ih _ h
      · split
        · exact ih _ (by simp [joinContents_append, joinContents, h])
        · exact ih _ h

/-- C1.  For every verse text container parsed by `parseTextElement`
(including an absent one), concatenating the `content` fields of the
returned segments in order and trimming once yields exactly the returned
plain text field. -/
theorem c1_segments_plaintext_roundtrip (o : Option XNode) :
    trimChars (joinContents (parseTextElement o).segments) = (parseTextElement o).text := by
  cases o with
  | none => rfl
  | some el =>
    have h := parseTextLoop_plainText el.childNodes ⟨[], [], false, false⟩ rfl
    simp only [parseTextElement]
    rw [← h]

/-- The loop of `parseTextElement` appends exactly one segment per
contributing child node, in order. -/
lemma parseTextLoop_segments (ns : List XNode) (st : TPState) :
    (parseTextLoop ns st).segments = st.segments ++ ns.filterMap segOfChild := by
  induction ns generalizing st with
  | nil => simp [parseTextLoop]
  | cons n ns ih =>
    cases n with
    | text s =>
      rw [parseTextLoop]
      split
      next hc => rw [ih]; simp [segOfChild, hc]
      next hc => rw [ih]; simp [segOfChild, hc]
    | elem t a cs =>
      rw [parseTextLoop]
      split
      next hp => rw [ih]; simp [segOfChild, hp]
      next hp =>
        split
        next hq => rw [ih]; simp [segOfChild, hp, hq]
        next hq =>
          rw [ih, List.filterMap_cons]
          simp only [segOfChild]
          rw [if_neg hp, if_neg hq]

/-- Counterexample to C6.  A text container holding two adjacent quote
elements with the same speaker produces two consecutive segments of
identical kind and speaker: no coalescing happens, so the segments list can
contain two consecutive segments with identical kind and speaker. -/
theorem c6_counterexample :
    (parseTextElement (some (.elem "text".toList []
        [.elem "q".toList [("who".toList, "Jesus".toList)] [.text "Follow ".toList],
         .elem "q".toList [("who".toList, "Jesus".toList)] [.text "me".toList]]))).segments.map
      (fun s => (s.type, s.speaker)) =
      [(SegKind.speaker, some "Jesus".toList), (SegKind.speaker, some "Jesus".toList)] := by
  decide

/-- C6 amended.  No coalescing is performed: the segments list contains
exactly one segment per contributing child of the text container (one for
each non-blank text node and one for each quote element), in document
order; in particular adjacent segments with identical kind and speaker can
both occur. -/
theorem c6_amended_no_coalescing (el : XNode) :
    (parseTextElement (some el)).segments = el.childNodes.filterMap segOfChild := by
  simpa using parseTextLoop_segments el.childNodes ⟨[], [], false, false⟩

/-- Counterexample to C2.  On the claimed scenario
`outer-quote(A){text1, inner-quote(B){text2}, text3}` the code emits a
single segment with the concatenated text attributed to the outer speaker,
not the three claimed segments. -/
theorem c2_counterexample :
    (parseTextElement (some (.elem "text".toList [] [nestedQuoteNode]))).segments =
      [⟨.speaker, "Tend my sheep".toList, some "Jesus".toList⟩] ∧
    (parseTextElement (some (.elem "text".toList [] [nestedQuoteNode]))).segments ≠
      [⟨.speaker, "Tend ".toList, some "Jesus".toList⟩,
       ⟨.speaker, "my".toList, some "Peter".toList⟩,
       ⟨.speaker, " sheep".toList, some "Jesus".toList⟩] := by
  decide

/-- C2 amended.  A quote element with speaker `A` produces exactly one
segment: its content is the markup-stripped flattening of the text of the
entire quote subtree (nested quotes included) and it is attributed to the
outermost quote's speaker `A`; an inner speaker never produces a segment
of its own. -/
theorem c2_amended_outer_speaker (t qt : List Char)
    (a qa : List (List Char × List Char)) (A : List Char) (F : List XNode)
    (hq : qt.map Char.toLower = "q".toList)
    (hwho : getAttribute "who".toList (.elem qt qa F) = some A) (hA : A ≠ []) :
    parseTextElement (some (.elem t a [.elem qt qa F])) =
      ⟨trimChars (getTextContent (.elem qt qa F)),
       [⟨.speaker, getTextContent (.elem qt qa F), some A⟩],
       false, true⟩ := by
  have hwho' : getAttribute ['w', 'h', 'o'] (XNode.elem qt qa F) = some A := hwho
  simp [parseTextElement, parseTextLoop, XNode.childNodes, whoOf, hwho', hq, hA]

/-- Witness for the amended C2 on the nested-quote scenario itself. -/
theorem c2_amended_witness :
    parseTextElement (some (.elem "text".toList [] [nestedQuoteNode])) =
      ⟨trimChars (getTextContent nestedQuoteNode),
       [⟨.speaker, getTextContent nestedQuoteNode, some "Jesus".toList⟩],
       false, true⟩ :=
  c2_amended_outer_speaker "text".toList "q".toList []
    [("who".toList, "Jesus".toList)] "Jesus".toList _
    (by decide) (by decide) (by decide)

/-- C9.  A verse element with a valid (non-zero) verse number whose text
container is absent or has no children parses to a verse with empty plain
text, no segments, `paragraphStart = false` and `hasSpeaker = false` — as a
valid result, not an error — and that verse is included in the verse list
of any chapter element containing it. -/
theorem c9_empty_verse (verseEl : XNode) (n : Int)
    (hn : jsParseInt ((getAttribute "num".toList verseEl).getD "0".toList) = some n)
    (hnz : n ≠ 0)
    (htext : (getElementsByTagName "text".toList verseEl).head? = none ∨
      ∃ t a, (getElementsByTagName "text".toList verseEl).head? =
        some (.elem t a [])) :
    ∃ pv, parseVerse verseEl = some pv ∧ pv.verse = some n ∧ pv.text = [] ∧
      pv.segments = [] ∧ pv.paragraphStart = false ∧ pv.hasSpeaker = false ∧
      ∀ chapterEl, verseEl ∈ getElementsByTagName "verse".toList chapterEl →
        pv ∈ parseChapterVerses chapterEl := by
  have hne : jsParseInt ((getAttribute "num".toList verseEl).getD "0".toList) ≠
      some 0 := by
    rw [hn]
    intro h
    exact hnz (Option.some.inj h)
  have hres : parseTextElement
      (getElementsByTagName "text".toList verseEl).head? = ⟨[], [], false, false⟩ := by
    rcases htext with h | ⟨t, a, h⟩ <;> rw [h] <;> rfl
  have hpv : parseVerse verseEl = some ⟨some n, [], [], false,
      (match (getElementsByTagName "greek".toList verseEl).head? with
       | none => []
       | some greekEl =>
         (getElementsByTagName "w".toList greekEl).map (fun w =>
           ⟨getTextContent w, (getAttribute "lemma".toList w).getD []⟩)),
      (getElementsByTagName "note".toList verseEl).map (fun nd =>
        ⟨(getAttribute "term".toList nd).getD [], getTextContent nd⟩),
      false⟩ := by
    simp only [parseVerse, hres, hn,
      if_neg (show (some n : Option Int) ≠ some 0 from fun h => hnz (Option.some.inj h))]
  exact ⟨_, hpv, rfl, rfl, rfl, rfl, rfl,
    fun chEl hmem => List.mem_filterMap.mpr ⟨verseEl, hmem, hpv⟩⟩

/-- Witness for C9: a concrete verse element with number 3 and an empty
text container, inside a chapter with a sibling non-empty verse. -/
theorem c9_empty_verse_witness :
    ∃ pv, parseVerse (.elem "verse".toList [("num".toList, "3".toList)]
        [.elem "text".toList [] []]) = some pv ∧
      pv.verse = some 3 ∧ pv.text = [] ∧ pv.segments = [] ∧
      pv.paragraphStart = false ∧ pv.hasSpeaker = false ∧
      ∀ chapterEl, (.elem "verse".toList [("num".toList, "3".toList)]
          [.elem "text".toList [] []]) ∈
          getElementsByTagName "verse".toList chapterEl →
        pv ∈ parseChapterVerses chapterEl :=
  c9_empty_verse (.elem "verse".toList [("num".toList, "3".toList)]
      [.elem "text".toList [] []]) 3
    (by decide) (by decide) (Or.inr ⟨"text".toList, [], rfl⟩)

lemma groupLoop_flatten (vs : List ParsedVerse) :
    ∀ ps cur, (finalizeGroups (groupLoop vs ps cur)).flatten =
      ps.flatten ++ cur ++ vs := by
  induction vs with
  | nil =>
    intro ps cur
    by_cases h : 0 < cur.length
    · simp [groupLoop, finalizeGroups, h]
    · have hc : cur = [] := by
        cases cur with
        | nil => rfl
        | cons a l => simp at h
      subst hc
      simp [groupLoop, finalizeGroups]
  | cons v vs ih =>
    intro ps cur
    rw [groupLoop]
    split
    · rw [ih]; simp
    · rw [ih]; simp

/-- Invariant of the grouping loop: all flushed groups stay non-empty,
every group after the first starts with a flagged verse, and no non-head
verse of any group is flagged. -/
lemma groupLoop_inv (vs : List ParsedVerse) :
    ∀ ps cur,
    (∀ g ∈ ps, g ≠ []) →
    (∀ g ∈ ps.drop 1, headFlagged g) →
    (∀ g ∈ ps, tailUnflagged g) →
    tailUnflagged cur →
    (cur = [] → ps = []) →
    (ps ≠ [] → headFlagged cur) →
    (∀ g ∈ finalizeGroups (groupLoop vs ps cur), g ≠ []) ∧
    (∀ g ∈ (finalizeGroups (groupLoop vs ps cur)).drop 1, headFlagged g) ∧
    (∀ g ∈ finalizeGroups (groupLoop vs ps cur), tailUnflagged g) := by
  induction vs with
  | nil =>
    intro ps cur h1 h2 h3 h4 h5 h6
    simp only [groupLoop]
    by_cases h : 0 < cur.length
    · have hcur : cur ≠ [] := by
        intro hc
        subst hc
        simp at h
      simp only [finalizeGroups, if_pos h]
      refine ⟨?_, ?_, ?_⟩
      · intro g hg
        rcases List.mem_append.mp hg with hg | hg
        · exact h1 g hg
        · rw [List.mem_singleton.mp hg]; exact hcur
      · cases ps with
        | nil =>
          intro g hg
          simp at hg
        | cons p ps' =>
          intro g hg
          simp only [List.cons_append, List.drop_succ_cons, List.drop_zero] at hg
          rcases List.mem_append.mp hg with hg | hg
          · exact h2 g (by simpa using hg)
          · rw [List.mem_singleton.mp hg]
            exact h6 (by simp)
      · intro g hg
        rcases List.mem_append.mp hg with hg | hg
        · exact h3 g hg
        · rw [List.mem_singleton.mp hg]; exact h4
    · have hc : cur = [] := by
        cases cur with
        | nil => rfl
        | cons a l => simp at h
      subst hc
      simp only [finalizeGroups, if_neg h]
      exact ⟨h1, h2, h3⟩
  | cons v vs ih =>
    intro ps cur h1 h2 h3 h4 h5 h6
    rw [groupLoop]
    split
    next hcond =>
      rw [Bool.and_eq_true, decide_eq_true_eq] at hcond
      have hcur : cur ≠ [] := by
        intro hc
        subst hc
        simp at hcond
      apply ih (ps ++ [cur]) [v]
      · intro g hg
        rcases List.mem_append.mp hg with hg | hg
        · exact h1 g hg
        · rw [List.mem_singleton.mp hg]; exact hcur
      · cases ps with
        | nil =>
          intro g hg
          simp at hg
        | cons p ps' =>
          intro g hg
          simp only [List.cons_append, List.drop_succ_cons, List.drop_zero] at hg
          rcases List.mem_append.mp hg with hg | hg
          · exact h2 g (by simpa using hg)
          · rw [List.mem_singleton.mp hg]
            exact h6 (by simp)
      · intro g hg
        rcases List.mem_append.mp hg with hg | hg
        · exact h3 g hg
        · rw [List.mem_singleton.mp hg]; exact h4
      · intro x hx
        simp at hx
      · intro hcontra
        simp at hcontra
      · intro _ x hx
        simp only [List.head?_cons, Option.some.injEq] at hx
        rw [← hx]
        exact hcond.1
    next hcond =>
      rw [Bool.and_eq_true, decide_eq_true_eq] at hcond
      apply ih ps (cur ++ [v])
      · exact h1
      · exact h2
      · exact h3
      · cases cur with
        | nil =>
          intro x hx
          simp at hx
        | cons c cs' =>
          intro x hx
          simp only [List.cons_append, List.drop_succ_cons, List.drop_zero] at hx
          rcases List.mem_append.mp hx with hx | hx
          · exact h4 x (by simpa using hx)
          · rw [List.mem_singleton.mp hx]
            by_contra hfl
            exact hcond ⟨Bool.of_not_eq_false hfl, by simp⟩
      · intro hc
        simp at hc
      · intro hps
        have hcurne : cur ≠ [] := fun hc => hps (h5 hc)
        cases cur with
        | nil => exact absurd rfl hcurne
        | cons c cs' =>
          intro x hx
          simp only [List.cons_append, List.head?_cons, Option.some.injEq] at hx
          rw [← hx]
          exact h6 hps c (by simp)

/-- C5.  The paragraph grouping of `ChapterContent`: the groups flatten
back to the verse list in order (every verse in exactly one group, none
dropped or duplicated), every group is non-empty (in particular a
paragraph-start flag on the first verse creates no leading empty group),
every group after the first opens at a verse with `paragraphStart`, and no
verse in the middle of a group has `paragraphStart` — i.e. a new group
opens exactly when a verse is flagged and the current group is
non-empty. -/
theorem c5_paragraph_grouping (vs : List ParsedVerse) :
    (groupParagraphs vs).flatten = vs ∧
    (∀ g ∈ groupParagraphs vs, g ≠ []) ∧
    (∀ g ∈ (groupParagraphs vs).drop 1, headFlagged g) ∧
    (∀ g ∈ groupParagraphs vs, tailUnflagged g) := by
  have hinv := groupLoop_inv vs [] [] (by simp) (by simp) (by simp)
    (by intro x hx; simp at hx) (fun _ => rfl) (fun h => absurd rfl h)
  have hf := groupLoop_flatten vs [] []
  have hdef : groupParagraphs vs = finalizeGroups (groupLoop vs [] []) := rfl
  rw [hdef]
  exact ⟨by simpa using hf, hinv.1, hinv.2.1, hinv.2.2⟩

/-- Witness for C5 on the spec's concrete scenario
`[v1(false), v2(true), v3(false), v4(true)]`, whose grouping is
`[[v1], [v2, v3], [v4]]`. -/
theorem c5_witness :
    groupParagraphs
        [⟨some 1, [], [], false, [], [], false⟩,
         ⟨some 2, [], [], true, [], [], false⟩,
         ⟨some 3, [], [], false, [], [], false⟩,
         ⟨some 4, [], [], true, [], [], false⟩] =
      [[⟨some 1, [], [], false, [], [], false⟩],
       [⟨some 2, [], [], true, [], [], false⟩,
        ⟨some 3, [], [], false, [], [], false⟩],
       [⟨some 4, [], [], true, [], [], false⟩]] ∧
    ((groupParagraphs
        [⟨some 1, [], [], false, [], [], false⟩,
         ⟨some 2, [], [], true, [], [], false⟩,
         ⟨some 3, [], [], false, [], [], false⟩,
         ⟨some 4, [], [], true, [], [], false⟩]).flatten =
        [⟨some 1, [], [], false, [], [], false⟩,
         ⟨some 2, [], [], true, [], [], false⟩,
         ⟨some 3, [], [], false, [], [], false⟩,
         ⟨some 4, [], [], true, [], [], false⟩] ∧
      (∀ g ∈ groupParagraphs
        [⟨some 1, [], [], false, [], [], false⟩,
         ⟨some 2, [], [], true, [], [], false⟩,
         ⟨some 3, [], [], false, [], [], false⟩,
         ⟨some 4, [], [], true, [], [], false⟩], g ≠ []) ∧
      (∀ g ∈ (groupParagraphs
        [⟨some 1, [], [], false, [], [], false⟩,
         ⟨some 2, [], [], true, [], [], false⟩,
         ⟨some 3, [], [], false, [], [], false⟩,
         ⟨some 4, [], [], true, [], [], false⟩]).drop 1, headFlagged g) ∧
      (∀ g ∈ groupParagraphs
        [⟨some 1, [], [], false, [], [], false⟩,
         ⟨some 2, [], [], true, [], [], false⟩,
         ⟨some 3, [], [], false, [], [], false⟩,
         ⟨some 4, [], [], true, [], [], false⟩], tailUnflagged g)) :=
  ⟨by decide, c5_paragraph_grouping _⟩

lemma boldStripF_id (fuel : Nat) : ∀ s : List Char, '*' ∉ s →
    boldStripF fuel s = s := by
  induction fuel with
  | zero => intro s _; rfl
  | succ fuel ih =>
    intro s hs
    cases s with
    | nil => rfl
    | cons c cs =>
      rw [List.mem_cons, not_or] at hs
      rw [boldStripF, if_neg (fun hc => hs.1 hc.1.symm)]
      rw [ih cs hs.2]

lemma italicStripF_id (fuel : Nat) : ∀ s : List Char, '*' ∉ s →
    italicStripF fuel s = s := by
  induction fuel with
  | zero => intro s _; rfl
  | succ fuel ih =>
    intro s hs
    cases s with
    | nil => rfl
    | cons c cs =>
      rw [List.mem_cons, not_or] at hs
      rw [italicStripF, if_neg (fun hc => hs.1 hc.symm)]
      rw [ih cs hs.2]

lemma tagStripF_id (pat : List Char) (hpat : pat.head? = some '[')
    (fuel : Nat) : ∀ s : List Char, '[' ∉ s → tagStripF pat fuel s = s := by
  induction fuel with
  | zero => intro s _; rfl
  | succ fuel ih =>
    intro s hs
    cases s with
    | nil => rfl
    | cons c cs =>
      rw [List.mem_cons, not_or] at hs
      have hpre : pat.isPrefixOf (c :: cs) = false := by
        cases pat with
        | nil => simp at hpat
        | cons p pat' =>
          have hp : p = '[' := by
            simpa using hpat
          subst hp
          have hb : ('[' == c) = false := by
            rw [beq_eq_false_iff_ne]
            exact hs.1
          simp only [List.isPrefixOf, hb, Bool.false_and]
      rw [tagStripF, hpre]
      simp only [Bool.false_eq_true, if_false]
      rw [ih cs hs.2]

/-- On a string containing no `*` and no `[`, every pass of
`stripMarkdown` is the identity. -/
lemma stripMarkdown_id (s : List Char) (h1 : '*' ∉ s) (h2 : '[' ∉ s) :
    stripMarkdown s = s := by
  have e1 : boldStripF s.length s = s := boldStripF_id _ s h1
  have e2 : italicStripF s.length s = s := italicStripF_id _ s h1
  have e3 : tagStripF "[/SPEAKER:".toList s.length s = s :=
    tagStripF_id "[/SPEAKER:".toList rfl _ s h2
  have e4 : tagStripF "[SPEAKER:".toList s.length s = s :=
    tagStripF_id "[SPEAKER:".toList rfl _ s h2
  simp only [stripMarkdown, e1, e2, e3, e4]

/-- Counterexample to C7.  `stripMarkdown` is not idempotent: on
`"**a*b*c**"` the first application yields `"*abc*"` (the bold pass fails,
the italic pass removes the two inner pairs), and a second application
strips the surviving outer pair down to `"abc"`. -/
theorem c7_counterexample :
    stripMarkdown "**a*b*c**".toList = "*abc*".toList ∧
    stripMarkdown (stripMarkdown "**a*b*c**".toList) = "abc".toList ∧
    stripMarkdown (stripMarkdown "**a*b*c**".toList) ≠
      stripMarkdown "**a*b*c**".toList := by
  exact ⟨by decide, by decide, by decide⟩

/-- C7 amended.  `stripMarkdown` is not idempotent on arbitrary strings
(see the counterexample); it is a no-op — and hence trivially idempotent —
on strings free of emphasis delimiters and bracketed tags, i.e. containing
no `*` and no `[`. -/
theorem c7_amended_idempotent_on_clean (s : List Char)
    (h1 : '*' ∉ s) (h2 : '[' ∉ s) :
    stripMarkdown s = s ∧
    stripMarkdown (stripMarkdown s) = stripMarkdown s := by
  have hid := stripMarkdown_id s h1 h2
  exact ⟨hid, by rw [hid, hid]⟩

/-- Witness for the amended C7 on a concrete already-stripped string. -/
theorem c7_amended_witness :
    stripMarkdown "In the beginning".toList = "In the beginning".toList ∧
    stripMarkdown (stripMarkdown "In the beginning".toList) =
      stripMarkdown "In the beginning".toList :=
  c7_amended_idempotent_on_clean "In the beginning".toList (by decide) (by decide)

lemma takeWhile_nostar (b : List Char) (hb : '*' ∉ b) :
    b.takeWhile (· ≠ '*') = b := by
  induction b with
  | nil => rfl
  | cons c cs ih =>
    rw [List.mem_cons, not_or] at hb
    have hc : c ≠ '*' := fun h => hb.1 h.symm
    have hpc : (fun x => decide (x ≠ '*')) c = true := by simp [hc]
    rw [List.takeWhile_cons, if_pos hpc, ih hb.2]

lemma dropWhile_nostar (b : List Char) (hb : '*' ∉ b) :
    b.dropWhile (· ≠ '*') = [] := by
  induction b with
  | nil => rfl
  | cons c cs ih =>
    rw [List.mem_cons, not_or] at hb
    have hc : c ≠ '*' := fun h => hb.1 h.symm
    have hpc : (fun x => decide (x ≠ '*')) c = true := by simp [hc]
    rw [List.dropWhile_cons, if_pos hpc, ih hb.2]

/-- A lone `*` with no other `*` anywhere is left in place by the bold
pass. -/
lemma boldStripF_lone (fuel : Nat) : ∀ a b : List Char, '*' ∉ a → '*' ∉ b →
    boldStripF fuel (a ++ '*' :: b) = a ++ '*' :: b := by
  induction fuel with
  | zero => intro a b _ _; rfl
  | succ fuel ih =>
    intro a b ha hb
    cases a with
    | nil =>
      simp only [List.nil_append]
      have hbh : ¬b.head? = some '*' := by
        cases b with
        | nil => simp
        | cons d b' =>
          rw [List.mem_cons, not_or] at hb
          simp only [List.head?_cons, Option.some.injEq]
          exact fun h => hb.1 h.symm
      rw [boldStripF, if_neg (fun hcond => hbh hcond.2)]
      rw [boldStripF_id fuel b hb]
    | cons c a' =>
      rw [List.mem_cons, not_or] at ha
      rw [List.cons_append, boldStripF,
        if_neg (fun hcond => ha.1 hcond.1.symm)]
      rw [ih a' b ha.2 hb]

/-- A lone `**` with no other `*` anywhere is left in place by the bold
pass. -/
lemma boldStripF_lone2 (fuel : Nat) : ∀ a b : List Char, '*' ∉ a → '*' ∉ b →
    boldStripF fuel (a ++ '*' :: '*' :: b) = a ++ '*' :: '*' :: b := by
  induction fuel with
  | zero => intro a b _ _; rfl
  | succ fuel ih =>
    intro a b ha hb
    cases a with
    | nil =>
      simp only [List.nil_append]
      rw [boldStripF, if_pos ⟨rfl, rfl⟩]
      simp only [List.tail_cons]
      rw [takeWhile_nostar b hb, dropWhile_nostar b hb]
      rw [if_neg (by simp)]
      have h := boldStripF_lone fuel [] b (by simp) hb
      simp only [List.nil_append] at h
      rw [h]
    | cons c a' =>
      rw [List.mem_cons, not_or] at ha
      rw [List.cons_append, boldStripF,
        if_neg (fun hcond => ha.1 hcond.1.symm)]
      rw [ih a' b ha.2 hb]

/-- A lone `*` is left in place by the italic pass. -/
lemma italicStripF_lone (fuel : Nat) : ∀ a b : List Char, '*' ∉ a → '*' ∉ b →
    italicStripF fuel (a ++ '*' :: b) = a ++ '*' :: b := by
  induction fuel with
  | zero => intro a b _ _; rfl
  | succ fuel ih =>
    intro a b ha hb
    cases a with
    | nil =>
      simp only [List.nil_append]
      rw [italicStripF, if_pos rfl]
      rw [takeWhile_nostar b hb, dropWhile_nostar b hb]
      rw [if_neg (by simp)]
      rw [italicStripF_id fuel b hb]
    | cons c a' =>
      rw [List.mem_cons, not_or] at ha
      rw [List.cons_append, italicStripF,
        if_neg (fun hcond => ha.1 hcond.symm)]
      rw [ih a' b ha.2 hb]

/-- A lone `**` is left in place by the italic pass. -/
lemma italicStripF_lone2 (fuel : Nat) : ∀ a b : List Char, '*' ∉ a → '*' ∉ b →
    italicStripF fuel (a ++ '*' :: '*' :: b) = a ++ '*' :: '*' :: b := by
  induction fuel with
  | zero => intro a b _ _; rfl
  | succ fuel ih =>
    intro a b ha hb
    cases a with
    | nil =>
      simp only [List.nil_append]
      rw [italicStripF, if_pos rfl]
      have h := italicStripF_lone fuel [] b (by simp) hb
      simp only [List.nil_append] at h
      simp [List.takeWhile_cons, h]
    | cons c a' =>
      rw [List.mem_cons, not_or] at ha
      rw [List.cons_append, italicStripF,
        if_neg (fun hcond => ha.1 hcond.symm)]
      rw [ih a' b ha.2 hb]

/-- `stripMarkdown` preserves a lone `*` when the string holds no bracketed
tag material. -/
lemma stripMarkdown_lone (a b : List Char) (ha : '*' ∉ a) (hb : '*' ∉ b)
    (ha' : '[' ∉ a) (hb' : '[' ∉ b) :
    stripMarkdown (a ++ '*' :: b) = a ++ '*' :: b := by
  have hbr : '[' ∉ a ++ '*' :: b := by
    simp only [List.mem_append, List.mem_cons, not_or]
    exact ⟨ha', by decide, hb'⟩
  simp only [stripMarkdown, boldStripF_lone _ a b ha hb,
    italicStripF_lone _ a b ha hb,
    tagStripF_id "[/SPEAKER:".toList rfl _ _ hbr,
    tagStripF_id "[SPEAKER:".toList rfl _ _ hbr]

/-- `stripMarkdown` preserves a lone `**` when the string holds no
bracketed tag material. -/
lemma stripMarkdown_lone2 (a b : List Char) (ha : '*' ∉ a) (hb : '*' ∉ b)
    (ha' : '[' ∉ a) (hb' : '[' ∉ b) :
    stripMarkdown (a ++ '*' :: '*' :: b) = a ++ '*' :: '*' :: b := by
  have hbr : '[' ∉ a ++ '*' :: '*' :: b := by
    simp only [List.mem_append, List.mem_cons, not_or]
    exact ⟨ha', by decide, by decide, hb'⟩
  simp only [stripMarkdown, boldStripF_lone2 _ a b ha hb,
    italicStripF_lone2 _ a b ha hb,
    tagStripF_id "[/SPEAKER:".toList rfl _ _ hbr,
    tagStripF_id "[SPEAKER:".toList rfl _ _ hbr]

lemma splitItalicF_id (fuel : Nat) : ∀ (s acc : List Char), '*' ∉ s →
    splitItalicF fuel s acc = [acc ++ s] := by
  induction fuel with
  | zero => intro s acc _; rfl
  | succ fuel ih =>
    intro s acc hs
    cases s with
    | nil => simp [splitItalicF]
    | cons c cs =>
      rw [List.mem_cons, not_or] at hs
      rw [splitItalicF, if_neg (fun hc => hs.1 hc.symm)]
      rw [ih cs (acc ++ [c]) hs.2]
      simp

/-- The italic split leaves a string with a lone `*` in one piece. -/
lemma splitItalicF_lone (fuel : Nat) : ∀ a b acc : List Char,
    '*' ∉ a → '*' ∉ b →
    splitItalicF fuel (a ++ '*' :: b) acc = [acc ++ a ++ '*' :: b] := by
  induction fuel with
  | zero => intro a b acc _ _; simp [splitItalicF]
  | succ fuel ih =>
    intro a b acc ha hb
    cases a with
    | nil =>
      simp only [List.nil_append]
      rw [splitItalicF, if_pos rfl]
      rw [takeWhile_nostar b hb, dropWhile_nostar b hb]
      rw [if_neg (by simp)]
      rw [splitItalicF_id fuel b (acc ++ ['*']) hb]
      simp
    | cons c a' =>
      rw [List.mem_cons, not_or] at ha
      rw [List.cons_append, splitItalicF,
        if_neg (fun hc => ha.1 hc.symm)]
      rw [ih a' b (acc ++ [c]) ha.2 hb]
      simp

/-- The italic split leaves a string with a lone `**` in one piece. -/
lemma splitItalicF_lone2 (fuel : Nat) : ∀ a b acc : List Char,
    '*' ∉ a → '*' ∉ b →
    splitItalicF fuel (a ++ '*' :: '*' :: b) acc =
      [acc ++ a ++ '*' :: '*' :: b] := by
  induction fuel with
  | zero => intro a b acc _ _; simp [splitItalicF]
  | succ fuel ih =>
    intro a b acc ha hb
    cases a with
    | nil =>
      simp only [List.nil_append]
      rw [splitItalicF, if_pos rfl]
      have h := splitItalicF_lone fuel [] b (acc ++ ['*']) (by simp) hb
      simp only [List.nil_append] at h
      simp [List.takeWhile_cons, h]
    | cons c a' =>
      rw [List.mem_cons, not_or] at ha
      rw [List.cons_append, splitItalicF,
        if_neg (fun hc => ha.1 hc.symm)]
      rw [ih a' b (acc ++ [c]) ha.2 hb]
      simp

/-- Counterexample to C8.  The string `"x[SPEAKER:*]y"` contains a lone
unmatched italic delimiter (its only `*`), yet `stripMarkdown` does not
preserve it: the speaker-tag pass swallows the whole bracketed remnant,
delimiter included, producing `"xy"`. -/
theorem c8_counterexample :
    '*' ∈ "x[SPEAKER:*]y".toList ∧
    stripMarkdown "x[SPEAKER:*]y".toList = "xy".toList ∧
    '*' ∉ stripMarkdown "x[SPEAKER:*]y".toList := by
  exact ⟨by decide, by decide, by decide⟩

/-- C8 amended.  A lone unmatched bold or italic delimiter is preserved
literally and the surrounding text untouched: unconditionally by the
emphasis renderer, and by `stripMarkdown` provided no bracketed
speaker-tag material (no `[`) occurs in the string — a delimiter lying
inside a `[SPEAKER:…]` remnant is removed with the remnant (see the
counterexample). -/
theorem c8_amended_lone_delimiter (a b : List Char)
    (ha : '*' ∉ a) (hb : '*' ∉ b) :
    renderWithItalics (a ++ '*' :: b) = [.plain (a ++ '*' :: b)] ∧
    renderWithItalics (a ++ '*' :: '*' :: b) = [.plain (a ++ '*' :: '*' :: b)] ∧
    ('[' ∉ a → '[' ∉ b →
      stripMarkdown (a ++ '*' :: b) = a ++ '*' :: b ∧
      stripMarkdown (a ++ '*' :: '*' :: b) = a ++ '*' :: '*' :: b) := by
  refine ⟨?_, ?_, fun ha' hb' => ⟨stripMarkdown_lone a b ha hb ha' hb',
    stripMarkdown_lone2 a b ha hb ha' hb'⟩⟩
  · rw [renderWithItalics, splitItalicF_lone _ a b [] ha hb]
    rfl
  · rw [renderWithItalics, splitItalicF_lone2 _ a b [] ha hb]
    rfl

/-- Witness for the amended C8 at a concrete lone delimiter. -/
theorem c8_amended_witness :
    renderWithItalics ("or ".toList ++ '*' :: " else".toList) =
      [.plain ("or ".toList ++ '*' :: " else".toList)] ∧
    renderWithItalics ("or ".toList ++ '*' :: '*' :: " else".toList) =
      [.plain ("or ".toList ++ '*' :: '*' :: " else".toList)] ∧
    ('[' ∉ "or ".toList → '[' ∉ " else".toList →
      stripMarkdown ("or ".toList ++ '*' :: " else".toList) =
        "or ".toList ++ '*' :: " else".toList ∧
      stripMarkdown ("or ".toList ++ '*' :: '*' :: " else".toList) =
        "or ".toList ++ '*' :: '*' :: " else".toList) :=
  c8_amended_lone_delimiter "or ".toList " else".toList (by decide) (by decide)

/-- C3.  With a supplied non-empty verse-lemma set, if no fragment of the
looked-up term's lemma overlaps (as a substring, in either direction) any
verse lemma, `matchGlossaryTerm` returns no match even though the first
word of the text at the offset is in the lookup table; with no lemma set
supplied the check is skipped entirely and the permissive pipeline runs. -/
theorem c3_lemma_filter (gl : List GlossaryTerm) (text : List Char) (i : Nat) :
    (∀ s t, s ≠ [] →
      mapGet (buildTermLookup gl) (firstWordAt text i) = some t →
      hasMatchingLemma s t = false →
      matchGlossaryTerm gl text i (some s) = none) ∧
    matchGlossaryTerm gl text i none = matchGlossaryTermPermissive gl text i := by
  constructor
  · intro s t hs hlook hmatch
    by_cases hw : (text.drop i).takeWhile isWordChar = []
    · simp only [matchGlossaryTerm]
      rw [if_pos hw]
    · have hlook' : mapGet (buildTermLookup gl)
          (((text.drop i).takeWhile isWordChar).map Char.toLower) = some t := hlook
      have hblock : blocksGate (some s) t = true := by
        simp only [blocksGate]
        rw [if_pos (List.length_pos.mpr hs), hmatch]
        rfl
      simp only [matchGlossaryTerm]
      rw [if_neg hw]
      split
      next => rfl
      next t' heq =>
        have ht : t' = t := Option.some.inj (heq.symm.trans hlook')
        subst ht
        rw [if_pos hblock]
  · simp only [matchGlossaryTerm, matchGlossaryTermPermissive]
    by_cases hw : (text.drop i).takeWhile isWordChar = []
    · rw [if_pos hw, if_pos hw]
    · rw [if_neg hw, if_neg hw]
      split
      next => rfl
      next t heq => rw [if_neg (by simp [blocksGate])]

/-- Witness for C3: with verse lemmas containing only an unrelated lemma,
"just" at the start of "just as it is written" is rejected although the
word is in the lookup table; with no lemma set the permissive pipeline
runs. -/
theorem c3_witness :
    matchGlossaryTerm [justTerm] "just as it is written".toList 0
      (some ["μόνον".toList]) = none ∧
    matchGlossaryTerm [justTerm] "just as it is written".toList 0 none =
      matchGlossaryTermPermissive [justTerm] "just as it is written".toList 0 :=
  ⟨(c3_lemma_filter [justTerm] "just as it is written".toList 0).1
      ["μόνον".toList] justTerm (by decide) (by decide) (by decide),
   (c3_lemma_filter [justTerm] "just as it is written".toList 0).2⟩

lemma firstAltMatch_some (rem m : List Char) : ∀ alts : List (List Char),
    firstAltMatch alts rem = some m →
    ∃ r, r ∈ alts ∧ renderingMatchesAt r rem = true ∧
      m = rem.take r.length := by
  intro alts
  induction alts with
  | nil => intro h; exact absurd h (by simp [firstAltMatch])
  | cons r rs ih =>
    intro h
    rw [firstAltMatch] at h
    by_cases hr : renderingMatchesAt r rem = true
    · rw [if_pos hr] at h
      exact ⟨r, List.mem_cons_self r rs, hr, (Option.some.inj h).symm⟩
    · rw [if_neg hr] at h
      rcases ih h with ⟨r', hmem, hr', hm⟩
      exact ⟨r', List.mem_cons_of_mem r hmem, hr', hm⟩

lemma firstAltMatch_none (rem : List Char) : ∀ alts : List (List Char),
    (∀ r ∈ alts, renderingMatchesAt r rem = false) →
    firstAltMatch alts rem = none := by
  intro alts
  induction alts with
  | nil => intro _; rfl
  | cons r rs ih =>
    intro h
    rw [firstAltMatch,
      if_neg (by rw [h r (List.mem_cons_self r rs)]; simp)]
    exact ih (fun r' hr' => h r' (List.mem_cons_of_mem r hr'))

/-- C4.  A match is returned only when some alternative rendering of the
candidate term matches the text at the offset as an exact case-insensitive
prefix followed by a word boundary (whitespace, listed punctuation, or end
of string), the matched text being exactly that many characters; and a
first-word hit in the lookup table with no full-phrase confirmation yields
no match. -/
theorem c4_full_phrase_boundary (gl : List GlossaryTerm) (text : List Char)
    (i : Nat) (vls : Option (List (List Char))) :
    (∀ t m, matchGlossaryTerm gl text i vls = some (t, m) →
      ∃ r, r ∈ alternativesOf t ∧ renderingMatchesAt r (text.drop i) = true ∧
        m = (text.drop i).take r.length) ∧
    (∀ t, mapGet (buildTermLookup gl) (firstWordAt text i) = some t →
      (∀ r ∈ alternativesOf t, renderingMatchesAt r (text.drop i) = false) →
      matchGlossaryTerm gl text i vls = none) := by
  constructor
  · intro t m h
    simp only [matchGlossaryTerm] at h
    by_cases hw : (text.drop i).takeWhile isWordChar = []
    · rw [if_pos hw] at h
      exact absurd h (by simp)
    · rw [if_neg hw] at h
      split at h
      next => exact absurd h (by simp)
      next t' heq =>
        by_cases hbg : blocksGate vls t' = true
        · rw [if_pos hbg] at h
          exact absurd h (by simp)
        · rw [if_neg hbg] at h
          rcases Option.map_eq_some'.mp h with ⟨m', hm', heq2⟩
          have ht : t' = t := congrArg Prod.fst heq2
          have hm : m' = m := congrArg Prod.snd heq2
          subst ht
          subst hm
          exact firstAltMatch_some _ _ _ hm'
  · intro t hlook hfail
    by_cases hw : (text.drop i).takeWhile isWordChar = []
    · simp only [matchGlossaryTerm]
      rw [if_pos hw]
    · have hlook' : mapGet (buildTermLookup gl)
          (((text.drop i).takeWhile isWordChar).map Char.toLower) = some t := hlook
      simp only [matchGlossaryTerm]
      rw [if_neg hw]
      split
      next => rfl
      next t' heq =>
        have ht : t' = t := Option.some.inj (heq.symm.trans hlook')
        subst ht
        by_cases hbg : blocksGate vls t' = true
        · rw [if_pos hbg]
        · rw [if_neg hbg, firstAltMatch_none _ _ ?_]
          · rfl
          · exact hfail

/-- Witness for C4: the rendering "gentle in strength" followed directly
by a word character ("gentle in strengths") does not match even though
the first word hits the lookup table. -/
theorem c4_witness :
    matchGlossaryTerm [gentleTerm] "gentle in strengths".toList 0 none = none :=
  (c4_full_phrase_boundary [gentleTerm] "gentle in strengths".toList 0 none).2
    gentleTerm (by decide) (by decide)

lemma mapGet_cons (ek : List Char) (ev : GlossaryTerm)
    (m : List (List Char × GlossaryTerm)) (k : List Char) :
    mapGet ((ek, ev) :: m) k = if ek = k then some ev else mapGet m k := by
  by_cases h : ek = k
  · rw [if_pos h]
    simp only [mapGet]
    rw [List.find?_cons_of_pos _ (by simp [h])]
    rfl
  · rw [if_neg h]
    simp only [mapGet]
    rw [List.find?_cons_of_neg _ (by simp [h])]

lemma mapGet_mapSet (k : List Char) (v : GlossaryTerm) (k' : List Char) :
    ∀ m, mapGet (mapSet m k v) k' = if k = k' then some v else mapGet m k' := by
  intro m
  induction m with
  | nil =>
    rw [mapSet, mapGet_cons]
  | cons e m ih =>
    obtain ⟨ek, ev⟩ := e
    rw [mapSet]
    by_cases he : ek = k
    · rw [if_pos he, mapGet_cons, mapGet_cons]
      subst he
      by_cases hk : ek = k'
      · rw [if_pos hk, if_pos hk]
      · rw [if_neg hk, if_neg hk, if_neg hk]
    · rw [if_neg he, mapGet_cons, mapGet_cons, ih]
      by_cases hk2 : k = k'
      · have hek : ek ≠ k' := fun h => he (h.trans hk2.symm)
        rw [if_pos hk2, if_neg hek, if_pos hk2]
      · rw [if_neg hk2, if_neg hk2]

lemma mapGet_altsFold (t : GlossaryTerm) (k : List Char) :
    ∀ (alts : List (List Char)) lk,
    mapGet (alts.foldl (fun lk alt => mapSet lk (firstWordKey alt) t) lk) k =
      if k ∈ alts.map firstWordKey then some t else mapGet lk k := by
  intro alts
  induction alts with
  | nil => intro lk; simp
  | cons alt alts ih =>
    intro lk
    rw [List.foldl_cons, ih]
    by_cases hk : k ∈ alts.map firstWordKey
    · rw [if_pos hk, if_pos (by rw [List.map_cons]; exact List.mem_cons_of_mem _ hk)]
    · rw [if_neg hk, mapGet_mapSet]
      by_cases hk2 : firstWordKey alt = k
      · have hmem : k ∈ (alt :: alts).map firstWordKey := by
          rw [List.map_cons, ← hk2]
          exact List.mem_cons_self _ _
        rw [if_pos hk2, if_pos hmem]
      · have hmem : k ∉ (alt :: alts).map firstWordKey := by
          rw [List.map_cons, List.mem_cons, not_or]
          exact ⟨fun h => hk2 h.symm, hk⟩
        rw [if_neg hk2, if_neg hmem]

lemma mapGet_buildFold (k : List Char) : ∀ (gl : List GlossaryTerm) lk,
    mapGet (gl.foldl (fun lookup term =>
      (alternativesOf term).foldl
        (fun lk alt => mapSet lk (firstWordKey alt) term) lookup) lk) k =
    Option.or (gl.reverse.find? (fun t => k ∈ termFirstWordKeys t))
      (mapGet lk k) := by
  intro gl
  induction gl with
  | nil => intro lk; simp [Option.or]
  | cons t gl ih =>
    intro lk
    rw [List.foldl_cons, ih, List.reverse_cons, List.find?_append,
      mapGet_altsFold]
    cases hfind : gl.reverse.find? (fun t => decide (k ∈ termFirstWordKeys t)) with
    | some u => simp [Option.or]
    | none =>
      by_cases hk : k ∈ termFirstWordKeys t
      · have hk' : k ∈ (alternativesOf t).map firstWordKey := hk
        rw [if_pos hk']
        simp [Option.or, List.find?, hk]
      · have hk' : k ∉ (alternativesOf t).map firstWordKey := hk
        rw [if_neg hk']
        simp [Option.or, List.find?, hk]

/-- The lookup table maps a key to the last glossary term (in data order)
one of whose alternatives has that lowercased first word. -/
lemma mapGet_buildTermLookup (gl : List GlossaryTerm) (k : List Char) :
    mapGet (buildTermLookup gl) k =
      gl.reverse.find? (fun t => k ∈ termFirstWordKeys t) := by
  have h := mapGet_buildFold k gl []
  rw [buildTermLookup, h]
  cases gl.reverse.find? (fun t => decide (k ∈ termFirstWordKeys t)) with
  | none => rfl
  | some u => rfl

/-- A successful match pins down the looked-up term. -/
lemma matchGlossaryTerm_lookup_of_some (gl : List GlossaryTerm)
    (text : List Char) (i : Nat) (vls : Option (List (List Char)))
    (t : GlossaryTerm) (m : List Char)
    (h : matchGlossaryTerm gl text i vls = some (t, m)) :
    mapGet (buildTermLookup gl) (firstWordAt text i) = some t := by
  simp only [matchGlossaryTerm] at h
  by_cases hw : (text.drop i).takeWhile isWordChar = []
  · rw [if_pos hw] at h
    exact absurd h (by simp)
  · rw [if_neg hw] at h
    split at h
    next => exact absurd h (by simp)
    next t' heq =>
      by_cases hbg : blocksGate vls t' = true
      · rw [if_pos hbg] at h
        exact absurd h (by simp)
      · rw [if_neg hbg] at h
        rcases Option.map_eq_some'.mp h with ⟨m', hm', heq2⟩
        have ht : t' = t := congrArg Prod.fst heq2
        subst ht
        exact heq

/-- C10.  The first-word lookup table maps each key to at most one term:
the last term of the glossary data one of whose alternatives has that
lowercased first word (later terms overwrite earlier ones), and a
successful `matchGlossaryTerm` can only ever return that last term, so
earlier homographic terms are unreachable through matching. -/
theorem c10_last_term_wins (gl : List GlossaryTerm) (k : List Char) :
    mapGet (buildTermLookup gl) k =
      gl.reverse.find? (fun t => k ∈ termFirstWordKeys t) ∧
    ∀ text i vls t m, matchGlossaryTerm gl text i vls = some (t, m) →
      gl.reverse.find?
        (fun u => firstWordAt text i ∈ termFirstWordKeys u) = some t := by
  refine ⟨mapGet_buildTermLookup gl k, ?_⟩
  intro text i vls t m h
  rw [← mapGet_buildTermLookup]
  exact matchGlossaryTerm_lookup_of_some gl text i vls t m h

/-- Witness for C10: with two terms whose renderings share the first word
"grace", matching "grace now" returns the later term, and the lookup table
maps the key to it. -/
theorem c10_witness :
    mapGet (buildTermLookup [graceA, graceB]) "grace".toList =
      ([graceA, graceB].reverse.find?
        (fun t => "grace".toList ∈ termFirstWordKeys t)) ∧
    ([graceA, graceB].reverse.find?
        (fun u => firstWordAt "grace now".toList 0 ∈ termFirstWordKeys u)) =
      some graceB :=
  ⟨(c10_last_term_wins [graceA, graceB] "grace".toList).1,
   (c10_last_term_wins [graceA, graceB] "grace".toList).2
     "grace now".toList 0 none graceB "grace".toList (by decide)⟩

end Aitbible
